import Mathlib

/-!
# Blob identity and ordering model (`src/restic/blob.go`)

A shallow embedding of the blob kind enumeration `BlobType`, the composite
handle `BlobHandle`, and the `sort.Interface` implementation `BlobHandles`,
followed by the properties of serialization, display and ordering.

Conventions of the embedding:

* a Go `byte` / `uint8` is a `Fin 256`;
* a Go `[]byte` is a `List Byte`; a Go `string` that is compared with a
  literal is compared through its bytes (Go string equality is byte equality);
* a Go `error` result is an `Except String _` carrying the error text;
* a Go `int` index is an `Int`; an out-of-range index is a run-time panic,
  rendered as `none` in `Option`.
-/

namespace Restic

/-- Go `byte`, an alias of `uint8`. -/
abbrev Byte : Type := Fin 256

/-- Go `string`. -/
abbrev GoString : Type := String

/-- Go conversion `[]byte(s)`: the UTF-8 encoding of a string. -/
def bytesOf (s : GoString) : List Byte :=
  s.toList.flatMap fun c => (String.utf8EncodeChar c).map fun b => b.val

/-! ## BlobType -/

/-- Go `type BlobType uint8`. -/
abbrev BlobType : Type := Fin 256

/-- Constant `InvalidBlob BlobType = iota`. -/
def InvalidBlob : BlobType := 0

/-- Constant `DataBlob`, the second entry of the `iota` block. -/
def DataBlob : BlobType := 1

/-- Constant `TreeBlob`, the third entry of the `iota` block. -/
def TreeBlob : BlobType := 2

namespace BlobType

/-- Method `func (t BlobType) String() string`. The fallback is
`fmt.Sprintf("<BlobType %d>", t)`: the verb `%d` prints the decimal value. -/
def String (t : BlobType) : GoString :=
  if t = DataBlob then "data"
  else if t = TreeBlob then "tree"
  else "<BlobType " ++ Nat.repr t.val ++ ">"

/-- Method `func (t BlobType) MarshalJSON() ([]byte, error)`. -/
def MarshalJSON (t : BlobType) : Except GoString (List Byte) :=
  if t = DataBlob then .ok (bytesOf "\"data\"")
  else if t = TreeBlob then .ok (bytesOf "\"tree\"")
  else .error "unknown blob type"

/-- Method `func (t *BlobType) UnmarshalJSON(buf []byte) error`. The first
argument is the value the target `*t` holds before the call; the result is
the value it holds afterwards, paired with the returned error. -/
def UnmarshalJSON (t : BlobType) (buf : List Byte) : BlobType × Except GoString Unit :=
  if buf = bytesOf "\"data\"" then (DataBlob, .ok ())
  else if buf = bytesOf "\"tree\"" then (TreeBlob, .ok ())
  else (t, .error "unknown blob type")

end BlobType

/-! ## Identifiers and handles -/

/-- Modelled from the spec: the identifier type `ID`, which blob.go uses but
does not declare. It is a fixed-length byte array; the length `idSize` is a
parameter of the development. -/
structure ID (idSize : Nat) where
  /-- The bytes of the array, most significant first. -/
  bytes : List Byte
  /-- The array has exactly `idSize` elements. -/
  size_eq : bytes.length = idSize
deriving DecidableEq

/-- Go `type BlobHandle struct { ID ID; Type BlobType }`. The field `Type`
is written `Type_`. -/
structure BlobHandle (idSize : Nat) where
  /-- Field `ID`. -/
  ID : ID idSize
  /-- Field `Type`. -/
  Type_ : BlobType
deriving DecidableEq

namespace BlobHandle

/-- Method `func (h BlobHandle) String() string`, whose body is
`fmt.Sprintf("<%s/%s>", h.Type, h.ID.Str())`: the verb `%s` applied to
`h.Type` prints `BlobType.String`. The method `ID.Str`, the short display of
an identifier, is declared outside blob.go and is the parameter `Str`. -/
def String {idSize : Nat} (Str : Restic.ID idSize → GoString) (h : BlobHandle idSize) :
    GoString :=
  "<" ++ BlobType.String h.Type_ ++ "/" ++ Str h.ID ++ ">"

end BlobHandle

/-- Go `fmt.Sprintf("%v", elements)` for `elements []string`: the package fmt
prints a slice as an opening bracket, the elements separated by single
spaces, and a closing bracket; a string element is printed as it is. -/
def sprintfV (elements : List GoString) : GoString :=
  "[" ++ " ".intercalate elements ++ "]"

/-- Go `type BlobHandles []BlobHandle`. -/
abbrev BlobHandles (idSize : Nat) : Type := List (BlobHandle idSize)

namespace BlobHandles

variable {idSize : Nat}

/-- Method `func (h BlobHandles) Len() int`. -/
def Len (h : BlobHandles idSize) : Int := h.length

/-- Index expression `h[i]` on a slice with an `int` index: `none` is the
run-time panic for an index outside `0 <= i < len(h)`. -/
def index (h : BlobHandles idSize) (i : Int) : Option (BlobHandle idSize) :=
  if 0 ≤ i then h[i.toNat]? else none

/-- The `for k, b := range h[i].ID` loop of `Less`, started at position `k`
with the bytes of `h[i].ID` still to visit. The outer `none` is a panic
(index out of range); `some (some r)` is a `return r` from inside the loop;
`some none` is the loop running to its end without returning. -/
def Less.loop (h : BlobHandles idSize) (j : Int) : List Byte → Nat → Option (Option Bool)
  | [], _ => some none
  | b :: rest, k => do
    let hj ← index h j
    let c ← hj.ID.bytes[k]?
    if b = c then Less.loop h j rest (k + 1)
    else if b < c then pure (some true)
    else pure (some false)

/-- Method `func (h BlobHandles) Less(i, j int) bool`; `none` is a panic. -/
def Less (h : BlobHandles idSize) (i j : Int) : Option Bool := do
  let hi ← index h i
  match ← Less.loop h j hi.ID.bytes 0 with
  | some r => pure r
  | none =>
    let hi ← index h i
    let hj ← index h j
    pure (decide (hi.Type_ < hj.Type_))

/-- Method `func (h BlobHandles) Swap(i, j int)`, the tuple assignment
`h[i], h[j] = h[j], h[i]`: the right-hand sides `h[j]` and `h[i]` are read
first, then `h[i]` and `h[j]` are written in this order. The result is the
content of the slice after the call; `none` is a panic. -/
def Swap (h : BlobHandles idSize) (i j : Int) : Option (BlobHandles idSize) := do
  let vj ← index h j
  let vi ← index h i
  pure ((h.set i.toNat vj).set j.toNat vi)

/-- Method `func (h BlobHandles) String() string`: the loop appends the
display form of each handle to `elements`, which is then printed with `%v`. -/
def String (Str : ID idSize → GoString) (h : BlobHandles idSize) : GoString :=
  let elements := h.foldl (fun acc e => acc ++ [BlobHandle.String Str e]) []
  sprintfV elements

end BlobHandles

/-! ## Reference notions used in the statements -/

/-- First position at which two byte lists differ, compared as unsigned
bytes: `some true` when the left byte is the smaller one, `some false` when
it is the larger one, `none` when no compared position differs. -/
def firstDiff : List Byte → List Byte → Option Bool
  | x :: xs, y :: ys => if x = y then firstDiff xs ys else some (decide (x < y))
  | _, _ => none

/-- Reference lexicographic comparison of two handles on the pair
(identifier bytes, kind ordinal): the first differing identifier byte
decides, and the kind ordinal breaks the tie of identical identifiers. -/
def lexLess {idSize : Nat} (a b : BlobHandle idSize) : Bool :=
  (firstDiff a.ID.bytes b.ID.bytes).getD (decide (a.Type_ < b.Type_))

/-- A handle sequence is sorted with respect to `Less` when no element is
`Less` than an earlier element. -/
def SortedByLess {idSize : Nat} (h : BlobHandles idSize) : Prop :=
  ∀ j < h.length, ∀ i < j, BlobHandles.Less h (j : Int) (i : Int) = some false

instance {idSize : Nat} (h : BlobHandles idSize) : Decidable (SortedByLess h) := by
  unfold SortedByLess; infer_instance

/-- Reference reading of a canonical decimal numeral: the number that a
non-empty string of decimal digits without a superfluous leading zero
denotes; `none` for any other string. -/
def readDecimal (s : GoString) : Option Nat :=
  match s.data with
  | [] => none
  | '0' :: _ :: _ => none
  | cs => cs.foldlM (fun acc c => if c.isDigit then some (10 * acc + (c.toNat - 48)) else none) 0

/-! ## Sample handles

Two-byte identifiers as in the ordering examples of the specification. -/

/-- Sample identifier with the bytes 0x01, 0x00. -/
def sampleID1 : ID 2 := ⟨[1, 0], rfl⟩

/-- Sample identifier with the bytes 0x02, 0x00. -/
def sampleID2 : ID 2 := ⟨[2, 0], rfl⟩

/-- Modelled from the spec: a short display `ID.Str` of an identifier, which
is declared outside blob.go; the specification describes it as the first
bytes of the identifier hex-encoded. Here the first four bytes, in lower-case
hexadecimal. -/
def sampleStr {idSize : Nat} (id : ID idSize) : GoString :=
  String.mk ((id.bytes.take 4).flatMap fun b =>
    [Nat.digitChar (b.val / 16), Nat.digitChar (b.val % 16)])

/-- Sample handles of the display example: identifier 0xAB of kind data and
identifier 0xCD of kind tree. -/
def sampleDisplayHandles : BlobHandles 1 :=
  [⟨⟨[0xAB], rfl⟩, DataBlob⟩, ⟨⟨[0xCD], rfl⟩, TreeBlob⟩]

/-- Sample handle sequence, in the order that `Less` decides. -/
def sampleHandles : BlobHandles 2 :=
  [⟨sampleID1, DataBlob⟩, ⟨sampleID1, TreeBlob⟩, ⟨sampleID2, InvalidBlob⟩]

/-- Sample handle sequence carrying the two sample identifiers with other kinds. -/
def sampleHandlesOtherKinds : BlobHandles 2 :=
  [⟨sampleID2, TreeBlob⟩, ⟨sampleID1, TreeBlob⟩]

/-! ## Serialization of `BlobType` -/

theorem bytesOf_quoted_data : bytesOf "\"data\"" = [34, 100, 97, 116, 97, 34] := by decide

theorem bytesOf_quoted_tree : bytesOf "\"tree\"" = [34, 116, 114, 101, 101, 34] := by decide

/-- C1. Round trip: for a kind `k` that is `DataBlob` or `TreeBlob`,
`MarshalJSON(k)` succeeds with some bytes `b`, and `UnmarshalJSON(b)` succeeds
and leaves `k` in the target, whatever value `v` the target held before. -/
theorem marshal_unmarshal_roundtrip (k v : BlobType) (hk : k = DataBlob ∨ k = TreeBlob) :
    ∃ b, BlobType.MarshalJSON k = .ok b ∧ BlobType.UnmarshalJSON v b = (k, .ok ()) := by
  rcases hk with rfl | rfl
  · exact ⟨bytesOf "\"data\"", by simp [BlobType.MarshalJSON],
      by simp [BlobType.UnmarshalJSON]⟩
  · refine ⟨bytesOf "\"tree\"", by simp [BlobType.MarshalJSON, TreeBlob, DataBlob], ?_⟩
    simp [BlobType.UnmarshalJSON, bytesOf_quoted_data, bytesOf_quoted_tree]

theorem marshal_unmarshal_roundtrip_witness :
    (TreeBlob = DataBlob ∨ TreeBlob = TreeBlob) ∧
    ∃ b, BlobType.MarshalJSON TreeBlob = .ok b ∧
      BlobType.UnmarshalJSON InvalidBlob b = (TreeBlob, .ok ()) :=
  ⟨Or.inr rfl, marshal_unmarshal_roundtrip TreeBlob InvalidBlob (Or.inr rfl)⟩

/-- C2. `MarshalJSON(t)` succeeds exactly when `t` is `DataBlob` or `TreeBlob`;
the output is then the six bytes of the quoted token (34 is the double quote,
100 97 116 97 spell data, 116 114 101 101 spell tree); for `InvalidBlob` and
every other value the result is the error "unknown blob type", with no bytes. -/
theorem marshalJSON_contract (t : BlobType) :
    ((∃ b, BlobType.MarshalJSON t = .ok b) ↔ (t = DataBlob ∨ t = TreeBlob)) ∧
    BlobType.MarshalJSON DataBlob = .ok [34, 100, 97, 116, 97, 34] ∧
    BlobType.MarshalJSON TreeBlob = .ok [34, 116, 114, 101, 101, 34] ∧
    BlobType.MarshalJSON InvalidBlob = .error "unknown blob type" ∧
    (t = DataBlob ∨ t = TreeBlob ∨ BlobType.MarshalJSON t = .error "unknown blob type") := by
  refine ⟨?_, ?_, ?_, ?_, ?_⟩
  · constructor
    · rintro ⟨b, hb⟩
      by_cases h1 : t = DataBlob
      · exact Or.inl h1
      · by_cases h2 : t = TreeBlob
        · exact Or.inr h2
        · simp [BlobType.MarshalJSON, h1, h2] at hb
    · rintro (rfl | rfl)
      · exact ⟨bytesOf "\"data\"", by simp [BlobType.MarshalJSON]⟩
      · exact ⟨bytesOf "\"tree\"", by simp [BlobType.MarshalJSON, TreeBlob, DataBlob]⟩
  · simp [BlobType.MarshalJSON, bytesOf_quoted_data]
  · simp [BlobType.MarshalJSON, bytesOf_quoted_tree, TreeBlob, DataBlob]
  · simp [BlobType.MarshalJSON, InvalidBlob, TreeBlob, DataBlob]
  · by_cases h1 : t = DataBlob
    · exact Or.inl h1
    · by_cases h2 : t = TreeBlob
      · exact Or.inr (Or.inl h2)
      · exact Or.inr (Or.inr (by simp [BlobType.MarshalJSON, h1, h2]))

/-- C3. `UnmarshalJSON(buf)` succeeds exactly when `buf` is byte for byte the
quoted token data or the quoted token tree; every other input fails with the
error "unknown blob type": among them the empty input, the unquoted token, a
token in another letter case, a token with leading or trailing whitespace,
and the quoted token bogus. -/
theorem unmarshalJSON_contract (v : BlobType) (buf : List Byte) :
    ((BlobType.UnmarshalJSON v buf).2 = .ok () ↔
      (buf = [34, 100, 97, 116, 97, 34] ∨ buf = [34, 116, 114, 101, 101, 34])) ∧
    (buf = [34, 100, 97, 116, 97, 34] ∨ buf = [34, 116, 114, 101, 101, 34] ∨
      (BlobType.UnmarshalJSON v buf).2 = .error "unknown blob type") ∧
    (BlobType.UnmarshalJSON v []).2 = .error "unknown blob type" ∧
    (BlobType.UnmarshalJSON v (bytesOf "data")).2 = .error "unknown blob type" ∧
    (BlobType.UnmarshalJSON v (bytesOf "\"Data\"")).2 = .error "unknown blob type" ∧
    (BlobType.UnmarshalJSON v (bytesOf " \"data\"")).2 = .error "unknown blob type" ∧
    (BlobType.UnmarshalJSON v (bytesOf "\"data\" ")).2 = .error "unknown blob type" ∧
    (BlobType.UnmarshalJSON v (bytesOf "\"bogus\"")).2 = .error "unknown blob type" := by
  have key : ∀ b : List Byte, b ≠ [34, 100, 97, 116, 97, 34] →
      b ≠ [34, 116, 114, 101, 101, 34] →
      (BlobType.UnmarshalJSON v b).2 = .error "unknown blob type" := by
    intro b h1 h2
    simp [BlobType.UnmarshalJSON, bytesOf_quoted_data, bytesOf_quoted_tree, h1, h2]
  refine ⟨?_, ?_, key _ (by decide) (by decide), key _ (by decide) (by decide),
    key _ (by decide) (by decide), key _ (by decide) (by decide),
    key _ (by decide) (by decide), key _ (by decide) (by decide)⟩
  · constructor
    · intro hok
      by_cases h1 : buf = [34, 100, 97, 116, 97, 34]
      · exact Or.inl h1
      · by_cases h2 : buf = [34, 116, 114, 101, 101, 34]
        · exact Or.inr h2
        · rw [key buf h1 h2] at hok
          cases hok
    · rintro (rfl | rfl)
      · simp [BlobType.UnmarshalJSON, bytesOf_quoted_data]
      · simp [BlobType.UnmarshalJSON, bytesOf_quoted_data, bytesOf_quoted_tree]
  · by_cases h1 : buf = [34, 100, 97, 116, 97, 34]
    · exact Or.inl h1
    · by_cases h2 : buf = [34, 116, 114, 101, 101, 34]
      · exact Or.inr (Or.inl h2)
      · exact Or.inr (Or.inr (key buf h1 h2))

/-! ## The loop of `Less` and the reference comparison -/

theorem firstDiff_self (xs : List Byte) : firstDiff xs xs = none := by
  induction xs with
  | nil => rfl
  | cons x xs ih => simp [firstDiff, ih]

theorem firstDiff_eq_none {xs ys : List Byte} (hl : xs.length = ys.length)
    (h : firstDiff xs ys = none) : xs = ys := by
  induction xs generalizing ys with
  | nil =>
    cases ys with
    | nil => rfl
    | cons y ys => simp at hl
  | cons x xs ih =>
    cases ys with
    | nil => simp at hl
    | cons y ys =>
      simp only [firstDiff] at h
      split at h
      · next e =>
        subst e
        rw [ih (by simpa using hl) h]
      · cases h

theorem firstDiff_swap (xs ys : List Byte) :
    firstDiff ys xs = (firstDiff xs ys).map fun r => !r := by
  induction xs generalizing ys with
  | nil => cases ys <;> simp [firstDiff]
  | cons x xs ih =>
    cases ys with
    | nil => simp [firstDiff]
    | cons y ys =>
      simp only [firstDiff]
      by_cases e : x = y
      · subst e
        simp [ih]
      · have e2 : ¬ y = x := fun h => e h.symm
        simp only [e, e2, if_false, Option.map_some', Option.some.injEq]
        rcases lt_or_gt_of_ne e with h | h
        · simp [h, lt_asymm h]
        · simp [h, lt_asymm h]

theorem firstDiff_trans {xs ys zs : List Byte} {d1 d2 d3 : Bool}
    (hd : d1 = true → d2 = true → d3 = true)
    (h1 : (firstDiff xs ys).getD d1 = true) (h2 : (firstDiff ys zs).getD d2 = true)
    (hl1 : xs.length = ys.length) (hl2 : ys.length = zs.length) :
    (firstDiff xs zs).getD d3 = true := by
  induction xs generalizing ys zs with
  | nil =>
    cases ys with
    | nil =>
      cases zs with
      | nil => simpa [firstDiff] using hd (by simpa [firstDiff] using h1) (by simpa [firstDiff] using h2)
      | cons z zs => simp at hl2
    | cons y ys => simp at hl1
  | cons x xs ih =>
    cases ys with
    | nil => simp at hl1
    | cons y ys =>
      cases zs with
      | nil => simp at hl2
      | cons z zs =>
        simp only [firstDiff] at h1 h2 ⊢
        by_cases e1 : x = y
        · subst e1
          by_cases e2 : x = z
          · subst e2
            simp only [if_true] at h1 h2 ⊢
            exact ih h1 h2 (by simpa using hl1) (by simpa using hl2)
          · simpa [e2] using h2
        · simp only [e1, if_false, Option.getD_some, decide_eq_true_eq] at h1
          by_cases e2 : y = z
          · subst e2
            simp [e1, h1]
          · simp only [e2, if_false, Option.getD_some, decide_eq_true_eq] at h2
            have h3 := lt_trans h1 h2
            simp [ne_of_lt h3, h3]

theorem firstDiff_true_iff {xs ys : List Byte} (hl : xs.length = ys.length) :
    firstDiff xs ys = some true ↔
      ∃ (k : Nat) (x y : Byte), xs[k]? = some x ∧ ys[k]? = some y ∧
        (∀ m < k, xs[m]? = ys[m]?) ∧ x < y := by
  induction xs generalizing ys with
  | nil =>
    cases ys with
    | nil => simp [firstDiff]
    | cons y ys => simp at hl
  | cons x xs ih =>
    cases ys with
    | nil => simp at hl
    | cons y ys =>
      have hl2 : xs.length = ys.length := by simpa using hl
      simp only [firstDiff]
      by_cases e : x = y
      · subst e
        simp only [if_true]
        rw [ih hl2]
        constructor
        · rintro ⟨k, a, b, ha, hb, hpre, hlt⟩
          refine ⟨k + 1, a, b, by simpa using ha, by simpa using hb, ?_, hlt⟩
          intro m hm
          cases m with
          | zero => simp
          | succ m => simpa using hpre m (by omega)
        · rintro ⟨k, a, b, ha, hb, hpre, hlt⟩
          cases k with
          | zero =>
            simp at ha hb
            subst ha
            subst hb
            exact absurd hlt (lt_irrefl _)
          | succ k =>
            refine ⟨k, a, b, by simpa using ha, by simpa using hb, ?_, hlt⟩
            intro m hm
            simpa using hpre (m + 1) (by omega)
      · simp only [e, if_false, Option.some.injEq, decide_eq_true_eq]
        constructor
        · intro hlt
          exact ⟨0, x, y, by simp, by simp, by simp, hlt⟩
        · rintro ⟨k, a, b, ha, hb, hpre, hlt⟩
          cases k with
          | zero =>
            simp at ha hb
            subst ha
            subst hb
            exact hlt
          | succ k =>
            have := hpre 0 (by omega)
            simp at this
            exact absurd this e

namespace BlobHandles

variable {idSize : Nat}

theorem Less.loop_eq {h : BlobHandles idSize} {j : Int} {b : BlobHandle idSize}
    (hj : index h j = some b) (xs ys : List Byte) (k : Nat)
    (hd : b.ID.bytes.drop k = ys) (hl : xs.length ≤ ys.length) :
    Less.loop h j xs k = some (firstDiff xs ys) := by
  induction xs generalizing ys k with
  | nil => cases ys <;> simp [Less.loop, firstDiff]
  | cons x xs ih =>
    cases ys with
    | nil => simp at hl
    | cons y ys =>
      have hk : b.ID.bytes[k]? = some y := by
        have := congrArg List.head? hd
        simpa [List.head?_drop] using this
      have hd2 : b.ID.bytes.drop (k + 1) = ys := by
        have := congrArg List.tail hd
        simpa [List.tail_drop] using this
      have ih2 := ih ys (k + 1) hd2 (by simpa using hl)
      simp only [Less.loop, hj, hk, Option.bind_eq_bind, Option.some_bind, firstDiff]
      by_cases e : x = y
      · simp [e, ih2]
      · by_cases l : x < y
        · simp [e, l]
        · simp [e, l]

theorem Less_eq {h : BlobHandles idSize} {i j : Int} {a b : BlobHandle idSize}
    (hi : index h i = some a) (hj : index h j = some b) :
    Less h i j = some (lexLess a b) := by
  have hloop := Less.loop_eq hj a.ID.bytes b.ID.bytes 0 (by simp)
    (by rw [a.ID.size_eq, b.ID.size_eq])
  unfold Less
  simp only [hi, hj, hloop, Option.bind_eq_bind, Option.some_bind, lexLess]
  cases firstDiff a.ID.bytes b.ID.bytes <;> rfl

theorem index_natCast (h : BlobHandles idSize) (n : Nat) : index h (n : Int) = h[n]? := by
  simp [index]

theorem index_eq_some_iff (h : BlobHandles idSize) (i : Int) (a : BlobHandle idSize) :
    index h i = some a ↔ 0 ≤ i ∧ h[i.toNat]? = some a := by
  unfold index
  by_cases hi : 0 ≤ i <;> simp [hi]

theorem index_isSome_of_inRange (h : BlobHandles idSize) (i : Int)
    (h0 : 0 ≤ i) (h1 : i < Len h) : ∃ a, index h i = some a := by
  have hlt : i.toNat < h.length := by
    unfold Len at h1
    omega
  exact ⟨h[i.toNat], by simp [index, h0, List.getElem?_eq_getElem hlt]⟩

end BlobHandles

theorem ID.eq_of_bytes {idSize : Nat} {x y : ID idSize} (hb : x.bytes = y.bytes) : x = y := by
  obtain ⟨xs, hx⟩ := x
  obtain ⟨ys, hy⟩ := y
  simp only at hb
  subst hb
  rfl

theorem BlobHandle.eq_of_fields {idSize : Nat} {a b : BlobHandle idSize}
    (hb : a.ID.bytes = b.ID.bytes) (ht : a.Type_ = b.Type_) : a = b := by
  obtain ⟨⟨xs, hx⟩, s⟩ := a
  obtain ⟨⟨ys, hy⟩, t⟩ := b
  simp only at hb ht
  subst hb
  subst ht
  rfl

theorem lexLess_irrefl {idSize : Nat} (a : BlobHandle idSize) : lexLess a a = false := by
  simp [lexLess, firstDiff_self]

theorem lexLess_asymm {idSize : Nat} {a b : BlobHandle idSize}
    (hab : lexLess a b = true) : lexLess b a = false := by
  unfold lexLess at hab ⊢
  rw [firstDiff_swap a.ID.bytes b.ID.bytes]
  cases hfd : firstDiff a.ID.bytes b.ID.bytes with
  | none =>
    rw [hfd] at hab
    simp only [Option.getD_none, decide_eq_true_eq] at hab
    simp [lt_asymm hab]
  | some r =>
    rw [hfd] at hab
    simp only [Option.getD_some] at hab
    simp [hab]

theorem lexLess_total {idSize : Nat} {a b : BlobHandle idSize}
    (hab : lexLess a b = false) (hba : lexLess b a = false) : a = b := by
  unfold lexLess at hab hba
  rw [firstDiff_swap a.ID.bytes b.ID.bytes] at hba
  cases hfd : firstDiff a.ID.bytes b.ID.bytes with
  | none =>
    rw [hfd] at hab hba
    simp only [Option.getD_none, Option.map_none', decide_eq_false_iff_not] at hab hba
    have hb := firstDiff_eq_none (by rw [a.ID.size_eq, b.ID.size_eq]) hfd
    exact BlobHandle.eq_of_fields hb (le_antisymm (not_lt.mp hba) (not_lt.mp hab))
  | some r =>
    rw [hfd] at hab hba
    simp only [Option.getD_some, Option.map_some'] at hab hba
    subst hab
    simp at hba

theorem lexLess_trans {idSize : Nat} {a b c : BlobHandle idSize}
    (hab : lexLess a b = true) (hbc : lexLess b c = true) : lexLess a c = true := by
  unfold lexLess at hab hbc ⊢
  refine firstDiff_trans ?_ hab hbc (by rw [a.ID.size_eq, b.ID.size_eq])
    (by rw [b.ID.size_eq, c.ID.size_eq])
  intro h1 h2
  simp only [decide_eq_true_eq] at h1 h2 ⊢
  exact lt_trans h1 h2

theorem sortedByLess_iff_pairwise {idSize : Nat} (h : BlobHandles idSize) :
    SortedByLess h ↔ h.Pairwise fun a b => lexLess b a = false := by
  rw [List.pairwise_iff_getElem]
  unfold SortedByLess
  constructor
  · intro hs i j hi hj hij
    have := hs j hj i hij
    rw [BlobHandles.Less_eq (a := h[j]) (b := h[i])
      (by simp [BlobHandles.index_natCast, List.getElem?_eq_getElem hj])
      (by simp [BlobHandles.index_natCast, List.getElem?_eq_getElem hi])] at this
    simpa using this
  · intro hp j hj i hij
    have hi : i < h.length := lt_trans hij hj
    rw [BlobHandles.Less_eq (a := h[j]) (b := h[i])
      (by simp [BlobHandles.index_natCast, List.getElem?_eq_getElem hj])
      (by simp [BlobHandles.index_natCast, List.getElem?_eq_getElem hi])]
    simpa using hp i j hi hj hij

/-! ## The order decided by `Less` -/

/-- C4. Trichotomy: for the handles `a = h[i]` and `b = h[j]` of a sequence,
exactly one of `Less(i,j)`, `a = b`, `Less(j,i)` holds; `Less(i,i)` is false,
and `Less(i,j)` and `Less(j,i)` are never both true. -/
theorem less_trichotomy {idSize : Nat} (h : BlobHandles idSize) (i j : Int)
    (a b : BlobHandle idSize)
    (hi : BlobHandles.index h i = some a) (hj : BlobHandles.index h j = some b) :
    ((BlobHandles.Less h i j = some true ∧ a ≠ b ∧ BlobHandles.Less h j i = some false) ∨
     (BlobHandles.Less h i j = some false ∧ a = b ∧ BlobHandles.Less h j i = some false) ∨
     (BlobHandles.Less h i j = some false ∧ a ≠ b ∧ BlobHandles.Less h j i = some true)) ∧
    BlobHandles.Less h i i = some false ∧
    ¬ (BlobHandles.Less h i j = some true ∧ BlobHandles.Less h j i = some true) := by
  rw [BlobHandles.Less_eq hi hj, BlobHandles.Less_eq hj hi, BlobHandles.Less_eq hi hi,
    lexLess_irrefl]
  have hne : ∀ {c d : BlobHandle idSize}, lexLess c d = true → c ≠ d := by
    intro c d hcd e
    subst e
    rw [lexLess_irrefl] at hcd
    cases hcd
  refine ⟨?_, rfl, ?_⟩
  · cases hab : lexLess a b with
    | true => exact Or.inl ⟨rfl, hne hab, by rw [lexLess_asymm hab]⟩
    | false =>
      cases hba : lexLess b a with
      | true => exact Or.inr (Or.inr ⟨rfl, fun e => hne hba e.symm, rfl⟩)
      | false => exact Or.inr (Or.inl ⟨rfl, lexLess_total hab hba, rfl⟩)
  · rintro ⟨h1, h2⟩
    have h1 : lexLess a b = true := by simpa using h1
    rw [lexLess_asymm h1] at h2
    cases h2

theorem less_trichotomy_witness :
    BlobHandles.index sampleHandles 0 = some ⟨sampleID1, DataBlob⟩ ∧
    BlobHandles.index sampleHandles 2 = some ⟨sampleID2, InvalidBlob⟩ ∧
    (((BlobHandles.Less sampleHandles 0 2 = some true ∧
        (⟨sampleID1, DataBlob⟩ : BlobHandle 2) ≠ ⟨sampleID2, InvalidBlob⟩ ∧
        BlobHandles.Less sampleHandles 2 0 = some false) ∨
      (BlobHandles.Less sampleHandles 0 2 = some false ∧
        (⟨sampleID1, DataBlob⟩ : BlobHandle 2) = ⟨sampleID2, InvalidBlob⟩ ∧
        BlobHandles.Less sampleHandles 2 0 = some false) ∨
      (BlobHandles.Less sampleHandles 0 2 = some false ∧
        (⟨sampleID1, DataBlob⟩ : BlobHandle 2) ≠ ⟨sampleID2, InvalidBlob⟩ ∧
        BlobHandles.Less sampleHandles 2 0 = some true)) ∧
     BlobHandles.Less sampleHandles 0 0 = some false ∧
     ¬ (BlobHandles.Less sampleHandles 0 2 = some true ∧
        BlobHandles.Less sampleHandles 2 0 = some true)) :=
  ⟨by decide, by decide,
    less_trichotomy sampleHandles 0 2 ⟨sampleID1, DataBlob⟩ ⟨sampleID2, InvalidBlob⟩
      (by decide) (by decide)⟩

/-- C5. Transitivity: for three in-range positions of a sequence, if
`Less(i,j)` and `Less(j,k)` are true then `Less(i,k)` is true. -/
theorem less_transitive {idSize : Nat} (h : BlobHandles idSize) (i j k : Int)
    (a b c : BlobHandle idSize)
    (hi : BlobHandles.index h i = some a) (hj : BlobHandles.index h j = some b)
    (hk : BlobHandles.index h k = some c)
    (hab : BlobHandles.Less h i j = some true) (hbc : BlobHandles.Less h j k = some true) :
    BlobHandles.Less h i k = some true := by
  rw [BlobHandles.Less_eq hi hj] at hab
  rw [BlobHandles.Less_eq hj hk] at hbc
  rw [BlobHandles.Less_eq hi hk]
  have h1 : lexLess a b = true := by simpa using hab
  have h2 : lexLess b c = true := by simpa using hbc
  rw [lexLess_trans h1 h2]

theorem less_transitive_witness :
    BlobHandles.index sampleHandles 0 = some ⟨sampleID1, DataBlob⟩ ∧
    BlobHandles.index sampleHandles 1 = some ⟨sampleID1, TreeBlob⟩ ∧
    BlobHandles.index sampleHandles 2 = some ⟨sampleID2, InvalidBlob⟩ ∧
    BlobHandles.Less sampleHandles 0 1 = some true ∧
    BlobHandles.Less sampleHandles 1 2 = some true ∧
    BlobHandles.Less sampleHandles 0 2 = some true :=
  ⟨by decide, by decide, by decide, by decide, by decide,
    less_transitive sampleHandles 0 1 2 ⟨sampleID1, DataBlob⟩ ⟨sampleID1, TreeBlob⟩
      ⟨sampleID2, InvalidBlob⟩ (by decide) (by decide) (by decide) (by decide) (by decide)⟩

/-- C6. Refinement of the reference lexicographic order: for in-range indices
`i`, `j`, `Less(i,j)` returns, and it returns true if and only if either there
is a byte position `k` at which `h[i].ID` and `h[j].ID` first differ with
`h[i].ID[k] < h[j].ID[k]` as unsigned bytes, or the two identifiers are equal
in every byte and `h[i].Type < h[j].Type` as unsigned ordinals. -/
theorem less_refines_lexicographic {idSize : Nat} (h : BlobHandles idSize) (i j : Int)
    (hi0 : 0 ≤ i) (hi1 : i < BlobHandles.Len h) (hj0 : 0 ≤ j) (hj1 : j < BlobHandles.Len h) :
    ∃ a b r, BlobHandles.index h i = some a ∧ BlobHandles.index h j = some b ∧
      BlobHandles.Less h i j = some r ∧
      (r = true ↔
        ((∃ (k : Nat) (x y : Byte), a.ID.bytes[k]? = some x ∧ b.ID.bytes[k]? = some y ∧
            (∀ m < k, a.ID.bytes[m]? = b.ID.bytes[m]?) ∧ x ≠ y ∧ x < y) ∨
          ((∀ k : Nat, a.ID.bytes[k]? = b.ID.bytes[k]?) ∧ a.Type_ < b.Type_))) := by
  obtain ⟨a, ha⟩ := BlobHandles.index_isSome_of_inRange h i hi0 hi1
  obtain ⟨b, hb⟩ := BlobHandles.index_isSome_of_inRange h j hj0 hj1
  refine ⟨a, b, lexLess a b, ha, hb, BlobHandles.Less_eq ha hb, ?_⟩
  have hlen : a.ID.bytes.length = b.ID.bytes.length := by rw [a.ID.size_eq, b.ID.size_eq]
  have hiff := firstDiff_true_iff hlen
  unfold lexLess
  cases hfd : firstDiff a.ID.bytes b.ID.bytes with
  | none =>
    have hbytes := firstDiff_eq_none hlen hfd
    simp only [Option.getD_none, decide_eq_true_eq]
    constructor
    · intro hlt
      exact Or.inr ⟨fun k => by rw [hbytes], hlt⟩
    · rintro (⟨k, x, y, hx, hy, _, hxy, _⟩ | ⟨_, hlt⟩)
      · rw [hbytes, hy] at hx
        exact absurd (Option.some.inj hx).symm hxy
      · exact hlt
  | some r =>
    simp only [Option.getD_some]
    rw [hfd] at hiff
    constructor
    · intro hr
      subst hr
      obtain ⟨k, x, y, hx, hy, hpre, hlt⟩ := hiff.mp rfl
      exact Or.inl ⟨k, x, y, hx, hy, hpre, ne_of_lt hlt, hlt⟩
    · rintro (⟨k, x, y, hx, hy, hpre, _, hlt⟩ | ⟨hall, _⟩)
      · have := hiff.mpr ⟨k, x, y, hx, hy, hpre, hlt⟩
        exact Option.some.inj this
      · have hbytes : a.ID.bytes = b.ID.bytes := List.ext_getElem? hall
        rw [hbytes, firstDiff_self] at hfd
        cases hfd

theorem less_refines_lexicographic_witness :
    (0 : Int) ≤ 0 ∧ (0 : Int) < BlobHandles.Len sampleHandles ∧
    (0 : Int) ≤ 2 ∧ (2 : Int) < BlobHandles.Len sampleHandles ∧
    ∃ a b r, BlobHandles.index sampleHandles 0 = some a ∧
      BlobHandles.index sampleHandles 2 = some b ∧
      BlobHandles.Less sampleHandles 0 2 = some r ∧
      (r = true ↔
        ((∃ (k : Nat) (x y : Byte), a.ID.bytes[k]? = some x ∧ b.ID.bytes[k]? = some y ∧
            (∀ m < k, a.ID.bytes[m]? = b.ID.bytes[m]?) ∧ x ≠ y ∧ x < y) ∨
          ((∀ k : Nat, a.ID.bytes[k]? = b.ID.bytes[k]?) ∧ a.Type_ < b.Type_))) :=
  ⟨by decide, by decide, by decide, by decide,
    less_refines_lexicographic sampleHandles 0 2 (by decide) (by decide) (by decide)
      (by decide)⟩

/-- C7. Tie-break on the kind: for every identifier `x`, the handle
`(x, DataBlob)` is ordered before `(x, TreeBlob)` by `Less` and not the other
way round; likewise `(x, InvalidBlob)` is ordered before `(x, DataBlob)`. -/
theorem less_same_id_kind_order {idSize : Nat} (x : ID idSize) (h : BlobHandles idSize)
    (i j : Int) (t1 t2 : BlobType)
    (hi : BlobHandles.index h i = some ⟨x, t1⟩) (hj : BlobHandles.index h j = some ⟨x, t2⟩)
    (ht : (t1 = DataBlob ∧ t2 = TreeBlob) ∨ (t1 = InvalidBlob ∧ t2 = DataBlob)) :
    BlobHandles.Less h i j = some true ∧ BlobHandles.Less h j i = some false := by
  rw [BlobHandles.Less_eq hi hj, BlobHandles.Less_eq hj hi]
  rcases ht with ⟨rfl, rfl⟩ | ⟨rfl, rfl⟩ <;>
    constructor <;> simp [lexLess, firstDiff_self, DataBlob, TreeBlob, InvalidBlob]

theorem less_same_id_kind_order_witness :
    BlobHandles.index sampleHandles 0 = some ⟨sampleID1, DataBlob⟩ ∧
    BlobHandles.index sampleHandles 1 = some ⟨sampleID1, TreeBlob⟩ ∧
    ((DataBlob = DataBlob ∧ TreeBlob = TreeBlob) ∨
      (DataBlob = InvalidBlob ∧ TreeBlob = DataBlob)) ∧
    BlobHandles.Less sampleHandles 0 1 = some true ∧
    BlobHandles.Less sampleHandles 1 0 = some false :=
  ⟨by decide, by decide, Or.inl ⟨rfl, rfl⟩,
    less_same_id_kind_order sampleID1 sampleHandles 0 1 DataBlob TreeBlob
      (by decide) (by decide) (Or.inl ⟨rfl, rfl⟩)⟩

/-- C8. The identifier is the primary key: when the identifiers of `h[i]` and
`h[j]` differ, `Less(i,j)` is the same for any two handles carrying the same
two identifiers, whatever their kinds; and a handle whose identifier starts
0x01, 0x00 sorts before one whose identifier starts 0x02, 0x00. -/
theorem less_primary_key {idSize : Nat} (h g : BlobHandles idSize) (i j p q : Int)
    (a b c d : BlobHandle idSize)
    (hi : BlobHandles.index h i = some a) (hj : BlobHandles.index h j = some b)
    (hp : BlobHandles.index g p = some c) (hq : BlobHandles.index g q = some d)
    (hne : a.ID ≠ b.ID) (hca : c.ID = a.ID) (hdb : d.ID = b.ID) :
    BlobHandles.Less g p q = BlobHandles.Less h i j ∧
    (∀ ra rb : List Byte, a.ID.bytes = 1 :: 0 :: ra → b.ID.bytes = 2 :: 0 :: rb →
      BlobHandles.Less h i j = some true ∧ BlobHandles.Less h j i = some false) := by
  rw [BlobHandles.Less_eq hi hj, BlobHandles.Less_eq hj hi, BlobHandles.Less_eq hp hq]
  constructor
  · unfold lexLess
    rw [hca, hdb]
    cases hfd : firstDiff a.ID.bytes b.ID.bytes with
    | none =>
      have hbytes := firstDiff_eq_none (by rw [a.ID.size_eq, b.ID.size_eq]) hfd
      exact absurd (ID.eq_of_bytes hbytes) hne
    | some r => rfl
  · intro ra rb hra hrb
    have h12 : ¬ ((1 : Byte) = 2) := by decide
    have h21 : ¬ ((2 : Byte) = 1) := by decide
    have hlt : (1 : Byte) < 2 := by decide
    constructor
    · simp [lexLess, hra, hrb, firstDiff, h12, hlt]
    · simp [lexLess, hra, hrb, firstDiff, h21, lt_asymm hlt]

theorem less_primary_key_witness :
    BlobHandles.index sampleHandles 0 = some ⟨sampleID1, DataBlob⟩ ∧
    BlobHandles.index sampleHandles 2 = some ⟨sampleID2, InvalidBlob⟩ ∧
    BlobHandles.index sampleHandlesOtherKinds 1 = some ⟨sampleID1, TreeBlob⟩ ∧
    BlobHandles.index sampleHandlesOtherKinds 0 = some ⟨sampleID2, TreeBlob⟩ ∧
    sampleID1 ≠ sampleID2 ∧
    BlobHandles.Less sampleHandlesOtherKinds 1 0 = BlobHandles.Less sampleHandles 0 2 ∧
    BlobHandles.Less sampleHandles 0 2 = some true ∧
    BlobHandles.Less sampleHandles 2 0 = some false :=
  ⟨by decide, by decide, by decide, by decide, by decide,
    (less_primary_key sampleHandles sampleHandlesOtherKinds 0 2 1 0
      ⟨sampleID1, DataBlob⟩ ⟨sampleID2, InvalidBlob⟩ ⟨sampleID1, TreeBlob⟩
      ⟨sampleID2, TreeBlob⟩ (by decide) (by decide) (by decide) (by decide) (by decide)
      rfl rfl).1,
    (less_primary_key sampleHandles sampleHandlesOtherKinds 0 2 1 0
      ⟨sampleID1, DataBlob⟩ ⟨sampleID2, InvalidBlob⟩ ⟨sampleID1, TreeBlob⟩
      ⟨sampleID2, TreeBlob⟩ (by decide) (by decide) (by decide) (by decide) (by decide)
      rfl rfl).2 [] [] rfl rfl⟩

/-- C9. Determinism of sorting: two permutations of one handle sequence that
are both sorted with respect to `Less` are the identical sequence, because
two handles that `Less` orders in neither direction are equal. -/
theorem sorted_perm_unique {idSize : Nat} (l1 l2 : BlobHandles idSize)
    (hperm : l1.Perm l2) (hs1 : SortedByLess l1) (hs2 : SortedByLess l2) :
    l1 = l2 ∧
    (∀ (h : BlobHandles idSize) (i j : Int) (a b : BlobHandle idSize),
      BlobHandles.index h i = some a → BlobHandles.index h j = some b →
      BlobHandles.Less h i j = some false → BlobHandles.Less h j i = some false → a = b) := by
  constructor
  · rw [sortedByLess_iff_pairwise] at hs1 hs2
    haveI : IsAntisymm (BlobHandle idSize) (fun a b => lexLess b a = false) :=
      ⟨fun a b hab hba => lexLess_total hba hab⟩
    exact List.eq_of_perm_of_sorted hperm hs1 hs2
  · intro h i j a b hi hj hij hji
    rw [BlobHandles.Less_eq hi hj] at hij
    rw [BlobHandles.Less_eq hj hi] at hji
    exact lexLess_total (by simpa using hij) (by simpa using hji)

theorem sorted_perm_unique_witness :
    sampleHandles.Perm sampleHandles ∧ SortedByLess sampleHandles ∧
    (sampleHandles = sampleHandles ∧
      (∀ (h : BlobHandles 2) (i j : Int) (a b : BlobHandle 2),
        BlobHandles.index h i = some a → BlobHandles.index h j = some b →
        BlobHandles.Less h i j = some false → BlobHandles.Less h j i = some false → a = b)) :=
  ⟨List.Perm.refl _, by decide,
    sorted_perm_unique sampleHandles sampleHandles (List.Perm.refl _) (by decide) (by decide)⟩

/-! ## Display of `BlobType` -/

set_option maxRecDepth 100000 in
theorem readDecimal_repr_byte : ∀ t : Fin 256, readDecimal (Nat.repr t.val) = some t.val := by
  decide

/-- C10. `String(t)` is total: it returns "data" for `DataBlob`, "tree" for
`TreeBlob`, and for every other 8-bit value the text "<BlobType " followed by
the decimal numeral of `t` (the text `Nat.repr t`, which reads back as the
number `t`) followed by ">"; `String(InvalidBlob)` is "<BlobType 0>". -/
theorem blobType_string_contract (t : BlobType) :
    BlobType.String DataBlob = "data" ∧
    BlobType.String TreeBlob = "tree" ∧
    BlobType.String InvalidBlob = "<BlobType 0>" ∧
    (t = DataBlob ∨ t = TreeBlob ∨
      BlobType.String t = "<BlobType " ++ Nat.repr t.val ++ ">") ∧
    readDecimal (Nat.repr t.val) = some t.val := by
  refine ⟨by decide, by decide, by decide, ?_, readDecimal_repr_byte t⟩
  by_cases h1 : t = DataBlob
  · exact Or.inl h1
  · by_cases h2 : t = TreeBlob
    · exact Or.inr (Or.inl h2)
    · exact Or.inr (Or.inr (by simp [BlobType.String, h1, h2]))

/-! ## Failure and success of decoding -/

theorem unmarshalJSON_cases (v : BlobType) (buf : List Byte) :
    (buf = bytesOf "\"data\"" ∧ BlobType.UnmarshalJSON v buf = (DataBlob, .ok ())) ∨
    (buf = bytesOf "\"tree\"" ∧ BlobType.UnmarshalJSON v buf = (TreeBlob, .ok ())) ∨
    (buf ≠ bytesOf "\"data\"" ∧ buf ≠ bytesOf "\"tree\"" ∧
      BlobType.UnmarshalJSON v buf = (v, .error "unknown blob type")) := by
  by_cases h1 : buf = bytesOf "\"data\""
  · exact Or.inl ⟨h1, by simp [BlobType.UnmarshalJSON, h1]⟩
  · by_cases h2 : buf = bytesOf "\"tree\""
    · refine Or.inr (Or.inl ⟨h2, ?_⟩)
      subst h2
      simp [BlobType.UnmarshalJSON, bytesOf_quoted_data, bytesOf_quoted_tree]
    · exact Or.inr (Or.inr ⟨h1, h2, by simp [BlobType.UnmarshalJSON, h1, h2]⟩)

/-- C13. A failed decode leaves the target as it was: when `UnmarshalJSON(buf)`
returns an error, the target still holds its prior value `v`. -/
theorem unmarshalJSON_failure_keeps_target (v : BlobType) (buf : List Byte)
    (hfail : ∃ e, (BlobType.UnmarshalJSON v buf).2 = .error e) :
    (BlobType.UnmarshalJSON v buf).1 = v := by
  obtain ⟨e, he⟩ := hfail
  rcases unmarshalJSON_cases v buf with ⟨_, h⟩ | ⟨_, h⟩ | ⟨_, _, h⟩
  · rw [h] at he
    cases he
  · rw [h] at he
    cases he
  · rw [h]

theorem unmarshalJSON_failure_keeps_target_witness :
    (∃ e, (BlobType.UnmarshalJSON TreeBlob (bytesOf "\"bogus\"")).2 = .error e) ∧
    (BlobType.UnmarshalJSON TreeBlob (bytesOf "\"bogus\"")).1 = TreeBlob :=
  ⟨⟨"unknown blob type", rfl⟩,
    unmarshalJSON_failure_keeps_target TreeBlob (bytesOf "\"bogus\"")
      ⟨"unknown blob type", rfl⟩⟩

/-- C14. `UnmarshalJSON` never produces `InvalidBlob`: when it succeeds, the
target afterwards is `DataBlob` or `TreeBlob`, whatever it held before. -/
theorem unmarshalJSON_success_kind (v : BlobType) (buf : List Byte)
    (hok : (BlobType.UnmarshalJSON v buf).2 = .ok ()) :
    ((BlobType.UnmarshalJSON v buf).1 = DataBlob ∨
      (BlobType.UnmarshalJSON v buf).1 = TreeBlob) ∧
    (BlobType.UnmarshalJSON v buf).1 ≠ InvalidBlob := by
  rcases unmarshalJSON_cases v buf with ⟨_, h⟩ | ⟨_, h⟩ | ⟨_, _, h⟩
  · rw [h]
    exact ⟨Or.inl rfl, by decide⟩
  · rw [h]
    exact ⟨Or.inr rfl, by decide⟩
  · rw [h] at hok
    cases hok

theorem unmarshalJSON_success_kind_witness :
    (BlobType.UnmarshalJSON InvalidBlob (bytesOf "\"data\"")).2 = .ok () ∧
    (((BlobType.UnmarshalJSON InvalidBlob (bytesOf "\"data\"")).1 = DataBlob ∨
      (BlobType.UnmarshalJSON InvalidBlob (bytesOf "\"data\"")).1 = TreeBlob) ∧
    (BlobType.UnmarshalJSON InvalidBlob (bytesOf "\"data\"")).1 ≠ InvalidBlob) :=
  ⟨rfl, unmarshalJSON_success_kind InvalidBlob (bytesOf "\"data\"") rfl⟩

/-- C15. Decoding is the converse of encoding: when `UnmarshalJSON(buf)`
succeeds and leaves the kind `k` in the target, `MarshalJSON(k)` succeeds and
returns exactly `buf`. -/
theorem unmarshal_marshal_roundtrip (v : BlobType) (buf : List Byte)
    (hok : (BlobType.UnmarshalJSON v buf).2 = .ok ()) :
    BlobType.MarshalJSON (BlobType.UnmarshalJSON v buf).1 = .ok buf := by
  rcases unmarshalJSON_cases v buf with ⟨hb, h⟩ | ⟨hb, h⟩ | ⟨_, _, h⟩
  · rw [h, hb]
    rfl
  · rw [h, hb]
    rfl
  · rw [h] at hok
    cases hok

theorem unmarshal_marshal_roundtrip_witness :
    (BlobType.UnmarshalJSON InvalidBlob [34, 116, 114, 101, 101, 34]).2 = .ok () ∧
    BlobType.MarshalJSON (BlobType.UnmarshalJSON InvalidBlob [34, 116, 114, 101, 101, 34]).1 =
      .ok [34, 116, 114, 101, 101, 34] :=
  ⟨rfl, unmarshal_marshal_roundtrip InvalidBlob [34, 116, 114, 101, 101, 34] rfl⟩

/-! ## Display of handles -/

theorem foldl_append_singleton {α β : Type} (f : α → β) (l : List α) (acc : List β) :
    l.foldl (fun acc e => acc ++ [f e]) acc = acc ++ l.map f := by
  induction l generalizing acc with
  | nil => simp
  | cons x xs ih => simp [ih]

/-- C12. `BlobHandle.String(h)` is "<", then `BlobType.String(h.Type)`, then
"/", then the short display of `h.ID`, then ">"; for a handle of kind
`InvalidBlob` the kind part is the fallback text "<BlobType 0>". With the
sample short display, the handle (01 00, invalid) prints as
"<<BlobType 0>/0100>". -/
theorem blobHandle_string_format {idSize : Nat} (Str : ID idSize → GoString)
    (h : BlobHandle idSize) :
    BlobHandle.String Str h = "<" ++ BlobType.String h.Type_ ++ "/" ++ Str h.ID ++ ">" ∧
    BlobHandle.String Str ⟨h.ID, InvalidBlob⟩ = "<" ++ "<BlobType 0>" ++ "/" ++ Str h.ID ++ ">" ∧
    BlobHandle.String Str ⟨h.ID, DataBlob⟩ = "<" ++ "data" ++ "/" ++ Str h.ID ++ ">" ∧
    BlobHandle.String Str ⟨h.ID, TreeBlob⟩ = "<" ++ "tree" ++ "/" ++ Str h.ID ++ ">" ∧
    BlobHandle.String sampleStr (⟨sampleID1, InvalidBlob⟩ : BlobHandle 2) =
      "<<BlobType 0>/0100>" ∧
    BlobHandle.String sampleStr (⟨sampleID2, TreeBlob⟩ : BlobHandle 2) = "<tree/0200>" := by
  refine ⟨rfl, ?_, ?_, ?_, by decide, by decide⟩
  · have h0 : BlobType.String InvalidBlob = "<BlobType 0>" := by decide
    simp only [BlobHandle.String, h0]
  · have h0 : BlobType.String DataBlob = "data" := by decide
    simp only [BlobHandle.String, h0]
  · have h0 : BlobType.String TreeBlob = "tree" := by decide
    simp only [BlobHandle.String, h0]

/-- C11, as the code behaves: `BlobHandles.String(h)` is an opening bracket,
then the display forms of the handles of `h` in their current order separated
by a single space, then a closing bracket; for the two handles (id displayed
as ab, data) and (id displayed as cd, tree) it yields "[<data/ab> <tree/cd>]". -/
theorem blobHandles_string_space_separated {idSize : Nat} (Str : ID idSize → GoString)
    (h : BlobHandles idSize) (x y : ID idSize) (hx : Str x = "ab") (hy : Str y = "cd") :
    BlobHandles.String Str h =
      "[" ++ " ".intercalate (h.map (BlobHandle.String Str)) ++ "]" ∧
    BlobHandles.String Str [⟨x, DataBlob⟩, ⟨y, TreeBlob⟩] = "[<data/ab> <tree/cd>]" := by
  have hgen : ∀ g : BlobHandles idSize, BlobHandles.String Str g =
      "[" ++ " ".intercalate (g.map (BlobHandle.String Str)) ++ "]" := by
    intro g
    simp [BlobHandles.String, sprintfV, foldl_append_singleton]
  refine ⟨hgen h, ?_⟩
  have h1 : BlobType.String DataBlob = "data" := by decide
  have h2 : BlobType.String TreeBlob = "tree" := by decide
  rw [hgen]
  simp only [List.map, BlobHandle.String, hx, hy, h1, h2]
  decide

theorem blobHandles_string_space_separated_witness :
    sampleStr (⟨[0xAB], rfl⟩ : ID 1) = "ab" ∧ sampleStr (⟨[0xCD], rfl⟩ : ID 1) = "cd" ∧
    (BlobHandles.String sampleStr sampleDisplayHandles =
      "[" ++ " ".intercalate (sampleDisplayHandles.map (BlobHandle.String sampleStr)) ++ "]" ∧
    BlobHandles.String sampleStr
      ([⟨⟨[0xAB], rfl⟩, DataBlob⟩, ⟨⟨[0xCD], rfl⟩, TreeBlob⟩] : BlobHandles 1) =
      "[<data/ab> <tree/cd>]") :=
  ⟨by decide, by decide,
    blobHandles_string_space_separated sampleStr sampleDisplayHandles ⟨[0xAB], rfl⟩
      ⟨[0xCD], rfl⟩ (by decide) (by decide)⟩

/-- C11, as first stated, fails on the code: for the two handles (id
displayed as ab, data) and (id displayed as cd, tree) the result is
"[<data/ab> <tree/cd>]", with no comma, and so differs from
"[<data/ab>, <tree/cd>]" and from the comma-separated list of the display
forms. -/
theorem blobHandles_string_not_comma_separated :
    sampleStr (⟨[0xAB], rfl⟩ : ID 1) = "ab" ∧ sampleStr (⟨[0xCD], rfl⟩ : ID 1) = "cd" ∧
    BlobHandles.String sampleStr sampleDisplayHandles = "[<data/ab> <tree/cd>]" ∧
    BlobHandles.String sampleStr sampleDisplayHandles ≠ "[<data/ab>, <tree/cd>]" ∧
    BlobHandles.String sampleStr sampleDisplayHandles ≠
      "[" ++ ", ".intercalate (sampleDisplayHandles.map (BlobHandle.String sampleStr)) ++ "]" := by
  decide

/-! ## Strict serialization against display -/

theorem fallback_ne_of_head (d : GoString) (s : GoString) (c : Char) (cs : List Char)
    (hs : s.data = c :: cs) (hc : c ≠ '<') : "<BlobType " ++ d ++ ">" ≠ s := by
  intro h
  have h2 := congrArg String.data h
  rw [hs] at h2
  simp only [String.data_append] at h2
  have h3 : ('<' : Char) = c := by
    have := congrArg List.head? h2
    simpa using this
  exact hc h3.symm

theorem fallback_inj (a b : GoString)
    (h : "<BlobType " ++ a ++ ">" = "<BlobType " ++ b ++ ">") : a = b := by
  have h2 := congrArg String.data h
  simp only [String.data_append, List.append_assoc] at h2
  have h3 := List.append_cancel_left h2
  have h4 := List.append_cancel_right h3
  exact String.ext h4

theorem repr_byte_inj (s t : Fin 256) (h : Nat.repr s.val = Nat.repr t.val) : s = t := by
  have hs := readDecimal_repr_byte s
  have ht := readDecimal_repr_byte t
  rw [h, ht] at hs
  exact Fin.ext (Option.some.inj hs).symm

theorem string_eq_fallback_iff (t : BlobType) :
    BlobType.String t = "<BlobType " ++ Nat.repr t.val ++ ">" ↔
      (t ≠ DataBlob ∧ t ≠ TreeBlob) := by
  constructor
  · intro h
    constructor
    · intro e
      subst e
      exact fallback_ne_of_head _ "data" 'd' ['a', 't', 'a'] rfl (by decide) h.symm
    · intro e
      subst e
      exact fallback_ne_of_head _ "tree" 't' ['r', 'e', 'e'] rfl (by decide) h.symm
  · rintro ⟨h1, h2⟩
    simp [BlobType.String, h1, h2]

/-- C18. Strict serialization agrees with display wherever it succeeds: the
bytes that `MarshalJSON(t)` returns are a double quote, then the bytes of
`BlobType.String(t)`, then a double quote; and `MarshalJSON(t)` fails exactly
for those `t` whose `String(t)` is the fallback text "<BlobType n>". -/
theorem marshalJSON_agrees_with_string (t : BlobType) :
    (∀ b, BlobType.MarshalJSON t = .ok b →
      b = bytesOf "\"" ++ bytesOf (BlobType.String t) ++ bytesOf "\"") ∧
    ((∃ e, BlobType.MarshalJSON t = .error e) ↔
      BlobType.String t = "<BlobType " ++ Nat.repr t.val ++ ">") ∧
    BlobType.MarshalJSON DataBlob =
      .ok (bytesOf "\"" ++ bytesOf (BlobType.String DataBlob) ++ bytesOf "\"") ∧
    BlobType.MarshalJSON TreeBlob =
      .ok (bytesOf "\"" ++ bytesOf (BlobType.String TreeBlob) ++ bytesOf "\"") := by
  have hd : bytesOf "\"data\"" =
      bytesOf "\"" ++ bytesOf (BlobType.String DataBlob) ++ bytesOf "\"" := by decide
  have ht : bytesOf "\"tree\"" =
      bytesOf "\"" ++ bytesOf (BlobType.String TreeBlob) ++ bytesOf "\"" := by decide
  have hD : BlobType.MarshalJSON DataBlob = .ok (bytesOf "\"data\"") := rfl
  have hT : BlobType.MarshalJSON TreeBlob = .ok (bytesOf "\"tree\"") := rfl
  refine ⟨?_, ?_, by rw [hD, hd], by rw [hT, ht]⟩
  · intro b hb
    by_cases h1 : t = DataBlob
    · subst h1
      rw [hD] at hb
      rw [← hd]
      exact (Except.ok.inj hb).symm
    · by_cases h2 : t = TreeBlob
      · subst h2
        rw [hT] at hb
        rw [← ht]
        exact (Except.ok.inj hb).symm
      · simp [BlobType.MarshalJSON, h1, h2] at hb
  · rw [string_eq_fallback_iff]
    constructor
    · rintro ⟨e, he⟩
      constructor
      · intro e1
        subst e1
        rw [hD] at he
        cases he
      · intro e2
        subst e2
        rw [hT] at he
        cases he
    · rintro ⟨h1, h2⟩
      exact ⟨"unknown blob type", by simp [BlobType.MarshalJSON, h1, h2]⟩

/-- C19. `BlobType.String` is injective over all 256 values: equal display
strings come from equal kinds; a fallback text "<BlobType n>" is never equal
to "data" or "tree". -/
theorem blobType_string_injective (s t : BlobType)
    (h : BlobType.String s = BlobType.String t) :
    s = t ∧
    "<BlobType " ++ Nat.repr s.val ++ ">" ≠ "data" ∧
    "<BlobType " ++ Nat.repr s.val ++ ">" ≠ "tree" := by
  have hdata : ∀ d : GoString, "<BlobType " ++ d ++ ">" ≠ "data" := fun d =>
    fallback_ne_of_head d "data" 'd' ['a', 't', 'a'] rfl (by decide)
  have htree : ∀ d : GoString, "<BlobType " ++ d ++ ">" ≠ "tree" := fun d =>
    fallback_ne_of_head d "tree" 't' ['r', 'e', 'e'] rfl (by decide)
  have hD : BlobType.String DataBlob = "data" := by decide
  have hT : BlobType.String TreeBlob = "tree" := by decide
  have hF : ∀ u : BlobType, u ≠ DataBlob → u ≠ TreeBlob →
      BlobType.String u = "<BlobType " ++ Nat.repr u.val ++ ">" := fun u h1 h2 =>
    (string_eq_fallback_iff u).mpr ⟨h1, h2⟩
  refine ⟨?_, hdata _, htree _⟩
  by_cases s1 : s = DataBlob
  · by_cases t1 : t = DataBlob
    · rw [s1, t1]
    · by_cases t2 : t = TreeBlob
      · rw [s1, t2, hD, hT] at h
        exact absurd h (by decide)
      · rw [s1, hD, hF t t1 t2] at h
        exact absurd h.symm (hdata _)
  · by_cases s2 : s = TreeBlob
    · by_cases t1 : t = DataBlob
      · rw [s2, t1, hD, hT] at h
        exact absurd h (by decide)
      · by_cases t2 : t = TreeBlob
        · rw [s2, t2]
        · rw [s2, hT, hF t t1 t2] at h
          exact absurd h.symm (htree _)
    · rw [hF s s1 s2] at h
      by_cases t1 : t = DataBlob
      · rw [t1, hD] at h
        exact absurd h (hdata _)
      · by_cases t2 : t = TreeBlob
        · rw [t2, hT] at h
          exact absurd h (htree _)
        · rw [hF t t1 t2] at h
          exact repr_byte_inj s t (fallback_inj _ _ h)

theorem blobType_string_injective_witness :
    BlobType.String (7 : BlobType) = BlobType.String (7 : BlobType) ∧
    ((7 : BlobType) = 7 ∧
    "<BlobType " ++ Nat.repr (7 : BlobType).val ++ ">" ≠ "data" ∧
    "<BlobType " ++ Nat.repr (7 : BlobType).val ++ ">" ≠ "tree") :=
  ⟨rfl, blobType_string_injective 7 7 rfl⟩

/-! ## Totality and the effect of `Swap` -/

theorem cons_set_perm {α : Type} (a b : α) (xs : List α) (j : Nat) (hb : xs[j]? = some b) :
    (b :: xs.set j a).Perm (a :: xs) := by
  induction xs generalizing j with
  | nil => simp at hb
  | cons y ys ih =>
    cases j with
    | zero =>
      simp only [List.getElem?_cons_zero, Option.some.injEq] at hb
      subst hb
      exact List.Perm.swap a y ys
    | succ j =>
      simp only [List.getElem?_cons_succ] at hb
      simp only [List.set_cons_succ]
      exact ((List.Perm.swap y b _).trans ((ih j hb).cons y)).trans (List.Perm.swap a y ys)

theorem set_set_perm_of_lt {α : Type} (a b : α) (l : List α) (i j : Nat) (hij : i < j)
    (ha : l[i]? = some a) (hb : l[j]? = some b) : ((l.set i b).set j a).Perm l := by
  induction l generalizing i j with
  | nil => simp at ha
  | cons x xs ih =>
    cases j with
    | zero => omega
    | succ j =>
      cases i with
      | zero =>
        simp only [List.getElem?_cons_zero, Option.some.injEq] at ha
        simp only [List.getElem?_cons_succ] at hb
        subst ha
        simp only [List.set_cons_zero, List.set_cons_succ]
        exact cons_set_perm x b xs j hb
      | succ i =>
        simp only [List.getElem?_cons_succ] at ha hb
        simp only [List.set_cons_succ]
        exact (ih i j (by omega) ha hb).cons x

theorem set_set_perm {α : Type} (a b : α) (l : List α) (i j : Nat)
    (ha : l[i]? = some a) (hb : l[j]? = some b) : ((l.set i b).set j a).Perm l := by
  rcases Nat.lt_trichotomy i j with hlt | heq | hgt
  · exact set_set_perm_of_lt a b l i j hlt ha hb
  · subst heq
    have hab : a = b := Option.some.inj (ha.symm.trans hb)
    subst hab
    have hset : (l.set i a).set i a = l := by
      apply List.ext_getElem?
      intro k
      by_cases hk : i = k
      · subst hk
        by_cases hl : i < l.length
        · simp [List.getElem?_set, hl, ← ha]
        · simp [List.getElem?_set, hl] at ha ⊢
          omega
      · simp [List.getElem?_set, hk]
    rw [hset]
  · rw [List.set_comm b a l (Nat.ne_of_gt hgt)]
    exact set_set_perm_of_lt b a l j i hgt hb ha

namespace BlobHandles

variable {idSize : Nat}

theorem Swap_eq {h : BlobHandles idSize} {i j : Int} {a b : BlobHandle idSize}
    (hi : index h i = some a) (hj : index h j = some b) :
    Swap h i j = some ((h.set i.toNat b).set j.toNat a) := by
  simp [Swap, hi, hj]

theorem index_set_set {h : BlobHandles idSize} {i j : Int} {a b : BlobHandle idSize}
    (hi : index h i = some a) (hj : index h j = some b) (k : Int) :
    index ((h.set i.toNat b).set j.toNat a) k =
      if k = j then some a else if k = i then some b else index h k := by
  obtain ⟨hi0, hia⟩ := (index_eq_some_iff h i a).mp hi
  obtain ⟨hj0, hjb⟩ := (index_eq_some_iff h j b).mp hj
  have hil : i.toNat < h.length := by
    rcases List.getElem?_eq_some_iff.mp hia with ⟨hl, _⟩
    exact hl
  have hjl : j.toNat < h.length := by
    rcases List.getElem?_eq_some_iff.mp hjb with ⟨hl, _⟩
    exact hl
  unfold index
  by_cases hk0 : 0 ≤ k
  · simp only [hk0, if_true]
    by_cases hkj : k = j
    · subst hkj
      simp [List.getElem?_set, hjl]
    · have hne : j.toNat ≠ k.toNat := by omega
      by_cases hki : k = i
      · subst hki
        simp [List.getElem?_set, hne, hkj, hil]
      · have hne2 : i.toNat ≠ k.toNat := by omega
        simp [List.getElem?_set, hne, hne2, hkj, hki]
  · have hkj : k ≠ j := by omega
    have hki : k ≠ i := by omega
    simp [hk0, hkj, hki]

end BlobHandles

/-- C16. Totality: for in-range indices `i`, `j`, `Less(i,j)` and `Swap(i,j)`
complete without an out-of-range access; every byte index `k` that the loop
of `Less` uses on `h[j].ID` is within the identifier length; and
`BlobType.String`, `BlobHandle.String` and `BlobHandles.String` return a
string for every input. -/
theorem operations_total {idSize : Nat} (Str : ID idSize → GoString)
    (h : BlobHandles idSize) (i j : Int)
    (hi0 : 0 ≤ i) (hi1 : i < BlobHandles.Len h) (hj0 : 0 ≤ j) (hj1 : j < BlobHandles.Len h) :
    (∃ r, BlobHandles.Less h i j = some r) ∧
    (∃ g, BlobHandles.Swap h i j = some g) ∧
    (∃ a b, BlobHandles.index h i = some a ∧ BlobHandles.index h j = some b ∧
      (∃ r, BlobHandles.Less.loop h j a.ID.bytes 0 = some r) ∧
      (∀ k : Nat, k < a.ID.bytes.length → k < idSize ∧ ∃ c, b.ID.bytes[k]? = some c)) ∧
    (∀ t : BlobType, ∃ s : GoString, BlobType.String t = s) ∧
    (∀ e : BlobHandle idSize, ∃ s : GoString, BlobHandle.String Str e = s) ∧
    (∃ s : GoString, BlobHandles.String Str h = s) := by
  obtain ⟨a, ha⟩ := BlobHandles.index_isSome_of_inRange h i hi0 hi1
  obtain ⟨b, hb⟩ := BlobHandles.index_isSome_of_inRange h j hj0 hj1
  refine ⟨⟨_, BlobHandles.Less_eq ha hb⟩, ⟨_, BlobHandles.Swap_eq ha hb⟩,
    ⟨a, b, ha, hb, ⟨_, BlobHandles.Less.loop_eq hb a.ID.bytes b.ID.bytes 0 (by simp)
      (by rw [a.ID.size_eq, b.ID.size_eq])⟩, ?_⟩,
    fun t => ⟨_, rfl⟩, fun e => ⟨_, rfl⟩, ⟨_, rfl⟩⟩
  intro k hk
  rw [a.ID.size_eq] at hk
  refine ⟨hk, ?_⟩
  have hkb : k < b.ID.bytes.length := by rw [b.ID.size_eq]; exact hk
  exact ⟨b.ID.bytes[k], List.getElem?_eq_getElem hkb⟩

theorem operations_total_witness :
    (0 : Int) ≤ 0 ∧ (0 : Int) < BlobHandles.Len sampleHandles ∧
    (0 : Int) ≤ 2 ∧ (2 : Int) < BlobHandles.Len sampleHandles ∧
    ((∃ r, BlobHandles.Less sampleHandles 0 2 = some r) ∧
    (∃ g, BlobHandles.Swap sampleHandles 0 2 = some g) ∧
    (∃ a b, BlobHandles.index sampleHandles 0 = some a ∧
      BlobHandles.index sampleHandles 2 = some b ∧
      (∃ r, BlobHandles.Less.loop sampleHandles 2 a.ID.bytes 0 = some r) ∧
      (∀ k : Nat, k < a.ID.bytes.length → k < 2 ∧ ∃ c, b.ID.bytes[k]? = some c)) ∧
    (∀ t : BlobType, ∃ s : GoString, BlobType.String t = s) ∧
    (∀ e : BlobHandle 2, ∃ s : GoString, BlobHandle.String sampleStr e = s) ∧
    (∃ s : GoString, BlobHandles.String sampleStr sampleHandles = s)) :=
  ⟨by decide, by decide, by decide, by decide,
    operations_total sampleStr sampleHandles 0 2 (by decide) (by decide) (by decide)
      (by decide)⟩

/-- C17. `Swap` is a pure transposition: for in-range indices `i`, `j`, after
`Swap(i,j)` position `i` holds the old `h[j]`, position `j` holds the old
`h[i]`, every other position is unchanged, `Len` is unchanged, the result is
a permutation of the original sequence, and `Swap(i,j)` applied once more
restores the original sequence. -/
theorem swap_transposition {idSize : Nat} (h : BlobHandles idSize) (i j : Int)
    (hi0 : 0 ≤ i) (hi1 : i < BlobHandles.Len h) (hj0 : 0 ≤ j) (hj1 : j < BlobHandles.Len h) :
    ∃ g a b, BlobHandles.index h i = some a ∧ BlobHandles.index h j = some b ∧
      BlobHandles.Swap h i j = some g ∧
      BlobHandles.index g i = some b ∧ BlobHandles.index g j = some a ∧
      (∀ k : Int, k ≠ i → k ≠ j → BlobHandles.index g k = BlobHandles.index h k) ∧
      BlobHandles.Len g = BlobHandles.Len h ∧
      g.Perm h ∧
      BlobHandles.Swap g i j = some h := by
  obtain ⟨a, ha⟩ := BlobHandles.index_isSome_of_inRange h i hi0 hi1
  obtain ⟨b, hb⟩ := BlobHandles.index_isSome_of_inRange h j hj0 hj1
  have hia := ((BlobHandles.index_eq_some_iff h i a).mp ha).2
  have hjb := ((BlobHandles.index_eq_some_iff h j b).mp hb).2
  have hgi : BlobHandles.index ((h.set i.toNat b).set j.toNat a) i = some b := by
    rw [BlobHandles.index_set_set ha hb]
    by_cases hij : i = j
    · subst hij
      simp only [if_true]
      exact (ha.symm.trans hb) ▸ rfl
    · simp [hij]
  have hgj : BlobHandles.index ((h.set i.toNat b).set j.toNat a) j = some a := by
    rw [BlobHandles.index_set_set ha hb]
    simp
  refine ⟨(h.set i.toNat b).set j.toNat a, a, b, ha, hb, BlobHandles.Swap_eq ha hb,
    hgi, hgj, ?_, ?_, set_set_perm a b h i.toNat j.toNat hia hjb, ?_⟩
  · intro k hki hkj
    rw [BlobHandles.index_set_set ha hb]
    simp [hki, hkj]
  · simp [BlobHandles.Len]
  · rw [BlobHandles.Swap_eq hgi hgj]
    congr 1
    apply List.ext_getElem?
    intro n
    have key := BlobHandles.index_set_set hgi hgj (n : Int)
    rw [BlobHandles.index_natCast, BlobHandles.index_set_set ha hb,
      BlobHandles.index_natCast] at key
    rw [key]
    by_cases hnj : (n : Int) = j
    · rw [if_pos hnj]
      rw [← hnj, BlobHandles.index_natCast] at hb
      exact hb.symm
    · rw [if_neg hnj]
      by_cases hni : (n : Int) = i
      · rw [if_pos hni]
        rw [← hni, BlobHandles.index_natCast] at ha
        exact ha.symm
      · rw [if_neg hni, if_neg hnj, if_neg hni]

theorem swap_transposition_witness :
    (0 : Int) ≤ 0 ∧ (0 : Int) < BlobHandles.Len sampleHandles ∧
    (0 : Int) ≤ 2 ∧ (2 : Int) < BlobHandles.Len sampleHandles ∧
    ∃ g a b, BlobHandles.index sampleHandles 0 = some a ∧
      BlobHandles.index sampleHandles 2 = some b ∧
      BlobHandles.Swap sampleHandles 0 2 = some g ∧
      BlobHandles.index g 0 = some b ∧ BlobHandles.index g 2 = some a ∧
      (∀ k : Int, k ≠ 0 → k ≠ 2 → BlobHandles.index g k = BlobHandles.index sampleHandles k) ∧
      BlobHandles.Len g = BlobHandles.Len sampleHandles ∧
      g.Perm sampleHandles ∧
      BlobHandles.Swap g 0 2 = some sampleHandles :=
  ⟨by decide, by decide, by decide, by decide,
    swap_transposition sampleHandles 0 2 (by decide) (by decide) (by decide) (by decide)⟩

end Restic
